import Mathlib

/-!
Shallow embedding of the veterinary on-call scheduler of
`Planning_gardes.py`: the calendar partitioning done by
`VetScheduler.__init__`, the constraint model emitted by
`VetScheduler.add_constraints`, the solution extraction
(`extract_solution`), the automatic diagnostic (`diagnose_schedule`,
violations and status), and the horizon part of `validate_inputs`.

Conventions.  A calendar date is an absolute day number (a `Nat`); the
epoch is chosen so that day numbers divisible by 7 are Mondays, matching
Python's `date.weekday()` (0 = Monday ... 6 = Sunday).  Adding one day
adds one to the day number, so the day of index `d` of the horizon is
`start + d` and its weekday is `(start + d) % 7`.
-/

/-- Weekday (0 = Monday ... 6 = Sunday) of day index `d` of a horizon
starting at absolute day number `start`. -/
def wdOf (start d : Nat) : Nat := (start + d) % 7

/-- One veterinarian of the roster.  `jour_repos` is the list of weekly
rest weekdays, already normalised to a list (the source turns a single
integer into a one-element list before use).  `conges` is the list of
vacation dates as absolute day numbers (the source stores `datetime`
values and compares them to the horizon's dates by equality). -/
structure Vet where
  name : String
  jour_repos : List Nat
  conges : List Nat
deriving DecidableEq

/-- The scheduler state read by `add_constraints`: the horizon (`start`
is the absolute day number of `start_date`, `nDays` the number of days),
the roster in `vet_names` order, and the configuration fields that
`add_constraints` actually consults: `groupe_A`, `groupe_B` and the
numeric entries of `contraintes` (note that `config.vets_speciaux` is
never read by `add_constraints`, which matches on vet names directly),
plus the cumulative history counters per vet index
(`historical_stats`). -/
structure Sched where
  start : Nat
  nDays : Nat
  vets : List Vet
  groupeA : List String
  groupeB : List String
  maxPremierSemaine : Nat
  ecartPremier : Nat
  ecartRappelable : Nat
  ecartDeuxieme : Nat
  histPremier : Nat → Nat
  histRappelable : Nat → Nat
  histDeuxieme : Nat → Nat

/-- Number of vets (`self.n_vets`). -/
def nVets (S : Sched) : Nat := S.vets.length

/-- Name of the vet of index `v` (`self.vet_names[v]`). -/
def vetName (S : Sched) (v : Nat) : String :=
  if h : v < S.vets.length then (S.vets.get ⟨v, h⟩).name else ""

/-- Rest weekdays of the vet of index `v`. -/
def vetRepos (S : Sched) (v : Nat) : List Nat :=
  if h : v < S.vets.length then (S.vets.get ⟨v, h⟩).jour_repos else []

/-- Vacation dates (absolute day numbers) of the vet of index `v`. -/
def vetConges (S : Sched) (v : Nat) : List Nat :=
  if h : v < S.vets.length then (S.vets.get ⟨v, h⟩).conges else []

/-!
Calendar partitioner (`VetScheduler.__init__`, the `while i < n_days`
loop): produces the weekday index list, the list of work-weeks (runs of
weekday indices closed on a Friday or at the end of the horizon) and
the list of weekend groups (a `[sat, sun]` pair when both days are in
the horizon, a one-element group for a partial weekend).  The loop is
rendered with explicit fuel; `fuel ≥ n - i` guarantees the whole
horizon is traversed, and the top-level entry point passes `fuel = n`.
-/

/-- One step of the calendar loop: `i` is the current day index, `cw`
the week under construction; returns `(weekdays, weeks, weekends)` for
the portion of the horizon from `i` on. -/
def calGo (start n : Nat) : Nat → Nat → List Nat → List Nat × List (List Nat) × List (List Nat)
  | 0, _, _ => ([], [], [])
  | fuel + 1, i, cw =>
    if i < n then
      if wdOf start i < 5 then
        if wdOf start i = 4 ∨ i = n - 1 then
          let r := calGo start n fuel (i + 1) []
          (i :: r.1, (cw ++ [i]) :: r.2.1, r.2.2)
        else
          let r := calGo start n fuel (i + 1) (cw ++ [i])
          (i :: r.1, r.2.1, r.2.2)
      else
        if wdOf start i = 5 then
          if i + 1 < n then
            let r := calGo start n fuel (i + 2) cw
            (r.1, r.2.1, [i, i + 1] :: r.2.2)
          else
            let r := calGo start n fuel (i + 1) cw
            (r.1, r.2.1, [i] :: r.2.2)
        else
          let r := calGo start n fuel (i + 1) cw
          (r.1, r.2.1, [i] :: r.2.2)
    else ([], [], [])

/-- Full calendar partition of the horizon. -/
def calendar (start n : Nat) : List Nat × List (List Nat) × List (List Nat) :=
  calGo start n n 0 []

/-- `self.weekdays`: the weekday (Mon-Fri) day indices of the horizon. -/
def weekdaysOf (S : Sched) : List Nat := (calendar S.start S.nDays).1

/-- `self.weeks`: the work-week groups of the horizon. -/
def weeksOf (S : Sched) : List (List Nat) := (calendar S.start S.nDays).2.1

/-- `self.weekends`: the weekend groups of the horizon. -/
def weekendsOf (S : Sched) : List (List Nat) := (calendar S.start S.nDays).2.2

/-- An assignment of the three Boolean decision variables per
(vet index, day index): `premier` = primary, `rappelable` = weekday
backup, `deuxieme` = weekend secondary. -/
structure Assignment where
  premier : Nat → Nat → Bool
  rappelable : Nat → Nat → Bool
  deuxieme : Nat → Nat → Bool

/-!
The constraint families emitted by `add_constraints`, numbered as in
the source (there is no rule 8 in the source; the numbering jumps from
7 to 9).  Each `ruleK S A` states that assignment `A` satisfies every
constraint the source adds under comment `K`.
-/

/-- Rule 1: each weekday has exactly one primary and one backup, a vet
never holds both on the same day, and the weekend-secondary role is
zero on weekdays. -/
def rule1 (S : Sched) (A : Assignment) : Prop :=
  ∀ d ∈ weekdaysOf S,
    (List.range (nVets S)).countP (fun v => A.premier v d) = 1 ∧
    (List.range (nVets S)).countP (fun v => A.rappelable v d) = 1 ∧
    ∀ v < nVets S,
      (A.premier v d).toNat + (A.rappelable v d).toNat ≤ 1 ∧
      A.deuxieme v d = false

/-- Rule 2: each full weekend pair has exactly one primary and one
secondary on Saturday, no backup on either day, the same vets on
Saturday and Sunday, and primary distinct from secondary.  Emitted only
when the weekend group has two days. -/
def rule2 (S : Sched) (A : Assignment) : Prop :=
  ∀ we ∈ weekendsOf S, we.length = 2 →
    (List.range (nVets S)).countP (fun v => A.premier v (we.getD 0 0)) = 1 ∧
    (List.range (nVets S)).countP (fun v => A.deuxieme v (we.getD 0 0)) = 1 ∧
    ∀ v < nVets S,
      A.rappelable v (we.getD 0 0) = false ∧
      A.rappelable v (we.getD 1 0) = false ∧
      A.premier v (we.getD 0 0) = A.premier v (we.getD 1 0) ∧
      A.deuxieme v (we.getD 0 0) = A.deuxieme v (we.getD 1 0) ∧
      (A.premier v (we.getD 0 0)).toNat + (A.deuxieme v (we.getD 0 0)).toNat ≤ 1

/-- Rule 3: at most `max_premier_semaine` primary assignments per vet
per work-week. -/
def rule3 (S : Sched) (A : Assignment) : Prop :=
  ∀ v < nVets S, ∀ w ∈ weeksOf S,
    w.countP (fun d => A.premier v d) ≤ S.maxPremierSemaine

/-- Rule 4: backup caps per work-week.  By exact name match: Dr. Olivier
gets at most 1 backup over every two consecutive work-weeks (and no
other backup cap), Dr. Dorra at most 1 per work-week, every other vet
at most 2 per work-week. -/
def rule4 (S : Sched) (A : Assignment) : Prop :=
  ∀ v < nVets S,
    (vetName S v = "Dr. Olivier" →
      ∀ i < (weeksOf S).length, i + 1 < (weeksOf S).length →
        ((weeksOf S).getD i [] ++ (weeksOf S).getD (i + 1) []).countP
          (fun d => A.rappelable v d) ≤ 1) ∧
    (vetName S v ≠ "Dr. Olivier" → vetName S v = "Dr. Dorra" →
      ∀ w ∈ weeksOf S, w.countP (fun d => A.rappelable v d) ≤ 1) ∧
    (vetName S v ≠ "Dr. Olivier" → vetName S v ≠ "Dr. Dorra" →
      ∀ w ∈ weeksOf S, w.countP (fun d => A.rappelable v d) ≤ 2)

/-- Rule 5: rest after a weekday primary: no primary and no backup the
next day. -/
def rule5 (S : Sched) (A : Assignment) : Prop :=
  ∀ v < nVets S, ∀ d ∈ weekdaysOf S, d + 1 < S.nDays →
    A.premier v d = true →
    A.premier v (d + 1) = false ∧ A.rappelable v (d + 1) = false

/-- The exception condition of rules 5bis and 15: the implications are
skipped for the vet named Dr. Laura when Monday (weekday 0) is one of
her rest days and the Monday's date is not one of her vacations. -/
def lauraException (S : Sched) (v lundi : Nat) : Bool :=
  vetName S v == "Dr. Laura" && (vetRepos S v).contains 0 &&
    !((vetConges S v).contains (S.start + lundi))

/-- Rule 5bis: Monday rest after a weekend primary, except for
Dr. Laura when `lauraException` holds. -/
def rule5bis (S : Sched) (A : Assignment) : Prop :=
  ∀ v < nVets S, ∀ we ∈ weekendsOf S,
    we.length = 2 ∧ we.getD 1 0 + 1 < S.nDays ∧
      wdOf S.start (we.getD 1 0 + 1) = 0 ∧
      lauraException S v (we.getD 1 0 + 1) = false →
    A.premier v (we.getD 0 0) = true →
    A.premier v (we.getD 1 0 + 1) = false ∧
    A.rappelable v (we.getD 1 0 + 1) = false

/-- The adjacent day pairs of a work-week considered by rule 6. -/
def consecPairs (w : List Nat) : List (Nat × Nat) :=
  (w.zip w.tail).filter (fun p => p.2 == p.1 + 1)

/-- Rule 6: at most one pair of consecutive backup days per vet per
work-week. -/
def rule6 (S : Sched) (A : Assignment) : Prop :=
  ∀ v < nVets S, ∀ w ∈ weeksOf S,
    (consecPairs w).countP (fun p => A.rappelable v p.1 && A.rappelable v p.2) ≤ 1

/-- Rule 7: rest days and vacations, plus the name-keyed special
blocks.  Dr. Olivier: never primary, never secondary, no backup on
weekend days.  Dr. Dorra and Dr. Isaure: no role at all on Mondays.
Every vet: no primary or backup on a rest weekday (Mon-Fri), no role at
all on a vacation date, and no primary or backup on the eve of a rest
weekday or vacation - except Dr. Julien, who is only blocked (primary
only) on the eve of a vacation, and Dr. Olivier, who is skipped. -/
def rule7 (S : Sched) (A : Assignment) : Prop :=
  ∀ v < nVets S,
    (vetName S v = "Dr. Olivier" → ∀ d < S.nDays,
      A.premier v d = false ∧ A.deuxieme v d = false ∧
      (5 ≤ wdOf S.start d → A.rappelable v d = false)) ∧
    (vetName S v = "Dr. Dorra" → ∀ d < S.nDays, wdOf S.start d = 0 →
      A.premier v d = false ∧ A.rappelable v d = false ∧ A.deuxieme v d = false) ∧
    (vetName S v = "Dr. Isaure" → ∀ d < S.nDays, wdOf S.start d = 0 →
      A.premier v d = false ∧ A.rappelable v d = false ∧ A.deuxieme v d = false) ∧
    (∀ d < S.nDays,
      (wdOf S.start d ∈ vetRepos S v ∧ wdOf S.start d < 5 →
        A.premier v d = false ∧ A.rappelable v d = false) ∧
      ((S.start + d) ∈ vetConges S v →
        A.premier v d = false ∧ A.rappelable v d = false ∧ A.deuxieme v d = false) ∧
      (d + 1 < S.nDays →
        (vetName S v = "Dr. Julien" ∧ (S.start + (d + 1)) ∈ vetConges S v →
          A.premier v d = false) ∧
        (vetName S v ≠ "Dr. Julien" ∧ vetName S v ≠ "Dr. Olivier" ∧
            ((wdOf S.start (d + 1) ∈ vetRepos S v ∧ wdOf S.start (d + 1) < 5) ∨
              (S.start + (d + 1)) ∈ vetConges S v) →
          A.premier v d = false ∧ A.rappelable v d = false)))

/-- Rule 9: no Friday duty (primary or backup) combined with any role
on the following weekend. -/
def rule9 (S : Sched) (A : Assignment) : Prop :=
  ∀ v < nVets S, ∀ we ∈ weekendsOf S, 0 < we.length →
    0 < we.getD 0 0 → wdOf S.start (we.getD 0 0 - 1) = 4 →
    (A.premier v (we.getD 0 0 - 1)).toNat + (A.premier v (we.getD 0 0)).toNat ≤ 1 ∧
    (A.premier v (we.getD 0 0 - 1)).toNat + (A.deuxieme v (we.getD 0 0)).toNat ≤ 1 ∧
    (A.rappelable v (we.getD 0 0 - 1)).toNat + (A.premier v (we.getD 0 0)).toNat ≤ 1 ∧
    (A.rappelable v (we.getD 0 0 - 1)).toNat + (A.deuxieme v (we.getD 0 0)).toNat ≤ 1

/-- Rule 10: for two full weekends fewer than 14 days apart, at most
one of the four weekend roles is held. -/
def rule10 (S : Sched) (A : Assignment) : Prop :=
  ∀ v < nVets S, ∀ i < (weekendsOf S).length, ∀ j < (weekendsOf S).length,
    i < j ∧ ((weekendsOf S).getD i []).length = 2 ∧
      ((weekendsOf S).getD j []).length = 2 ∧
      ((weekendsOf S).getD j []).getD 0 0 - ((weekendsOf S).getD i []).getD 0 0 < 14 →
    (A.premier v (((weekendsOf S).getD i []).getD 0 0)).toNat +
    (A.deuxieme v (((weekendsOf S).getD i []).getD 0 0)).toNat +
    (A.premier v (((weekendsOf S).getD j []).getD 0 0)).toNat +
    (A.deuxieme v (((weekendsOf S).getD j []).getD 0 0)).toNat ≤ 1

/-- The vet indices included in the three balancing envelopes
(everyone except Dr. Olivier and Dr. Dorra, by name). -/
def balIdx (S : Sched) : List Nat :=
  (List.range (nVets S)).filter
    (fun v => !(vetName S v == "Dr. Olivier") && !(vetName S v == "Dr. Dorra"))

/-- Every pairwise (truncated) difference within `l` is at most `k`;
for a nonempty list of naturals this says `max - min ≤ k`. -/
def pairGapLe (l : List Nat) (k : Nat) : Prop :=
  ∀ x ∈ l, ∀ y ∈ l, x - y ≤ k

/-- Rule 11: balancing of total primary counts (history added), gap at
most `ecart_equilibrage_premier`; emitted when at least two vets are in
the envelope. -/
def rule11 (S : Sched) (A : Assignment) : Prop :=
  1 < (balIdx S).length →
    pairGapLe
      ((balIdx S).map (fun v =>
        (List.range S.nDays).countP (fun d => A.premier v d) + S.histPremier v))
      S.ecartPremier

/-- Rule 12: balancing of weekday backup counts (history added). -/
def rule12 (S : Sched) (A : Assignment) : Prop :=
  1 < (balIdx S).length →
    pairGapLe
      ((balIdx S).map (fun v =>
        (weekdaysOf S).countP (fun d => A.rappelable v d) + S.histRappelable v))
      S.ecartRappelable

/-- Rule 13: balancing of weekend secondary counts over all weekend
days (history added). -/
def rule13 (S : Sched) (A : Assignment) : Prop :=
  1 < (balIdx S).length →
    pairGapLe
      ((balIdx S).map (fun v =>
        ((weekendsOf S).flatten).countP (fun d => A.deuxieme v d) + S.histDeuxieme v))
      S.ecartDeuxieme

/-- Rule 14: pairing compatibility.  When a vet of group A is primary,
the second role (backup on weekdays, secondary on weekends) may not be
held by a vet outside group B (Dr. Dorra being excluded from the rule on
both sides). -/
def rule14 (S : Sched) (A : Assignment) : Prop :=
  ∀ d < S.nDays, ∀ va < nVets S, vetName S va ∈ S.groupeA →
    ∀ vx < nVets S,
      ¬(vetName S vx ∈ S.groupeB ∧ vetName S vx ≠ "Dr. Dorra") ∧
        vx ≠ va ∧ vetName S vx ≠ "Dr. Dorra" →
      (5 ≤ wdOf S.start d →
        (A.premier va d).toNat + (A.deuxieme vx d).toNat ≤ 1) ∧
      (wdOf S.start d < 5 →
        (A.premier va d).toNat + (A.rappelable vx d).toNat ≤ 1)

/-- Rule 15: Monday rest after a weekend secondary, with the same
Dr. Laura exception as rule 5bis. -/
def rule15 (S : Sched) (A : Assignment) : Prop :=
  ∀ v < nVets S, ∀ we ∈ weekendsOf S,
    we.length = 2 ∧ we.getD 1 0 + 1 < S.nDays ∧
      wdOf S.start (we.getD 1 0 + 1) = 0 ∧
      lauraException S v (we.getD 1 0 + 1) = false →
    A.deuxieme v (we.getD 0 0) = true →
    A.premier v (we.getD 1 0 + 1) = false ∧
    A.rappelable v (we.getD 1 0 + 1) = false

/-- The full constraint model emitted by `add_constraints`: an
assignment satisfies it exactly when it satisfies every emitted
constraint. -/
def modelHolds (S : Sched) (A : Assignment) : Prop :=
  rule1 S A ∧ rule2 S A ∧ rule3 S A ∧ rule4 S A ∧ rule5 S A ∧
  rule5bis S A ∧ rule6 S A ∧ rule7 S A ∧ rule9 S A ∧ rule10 S A ∧
  rule11 S A ∧ rule12 S A ∧ rule13 S A ∧ rule14 S A ∧ rule15 S A

set_option synthInstance.maxSize 2048

instance (S : Sched) (A : Assignment) : Decidable (rule1 S A) := by
  unfold rule1; infer_instance

instance (S : Sched) (A : Assignment) : Decidable (rule2 S A) := by
  unfold rule2; infer_instance

instance (S : Sched) (A : Assignment) : Decidable (rule3 S A) := by
  unfold rule3; infer_instance

instance (S : Sched) (A : Assignment) : Decidable (rule4 S A) := by
  unfold rule4; infer_instance

instance (S : Sched) (A : Assignment) : Decidable (rule5 S A) := by
  unfold rule5; infer_instance

instance (S : Sched) (A : Assignment) : Decidable (rule5bis S A) := by
  unfold rule5bis; infer_instance

instance (S : Sched) (A : Assignment) : Decidable (rule6 S A) := by
  unfold rule6; infer_instance

instance (S : Sched) (A : Assignment) : Decidable (rule7 S A) := by
  unfold rule7; infer_instance

instance (S : Sched) (A : Assignment) : Decidable (rule9 S A) := by
  unfold rule9; infer_instance

instance (S : Sched) (A : Assignment) : Decidable (rule10 S A) := by
  unfold rule10; infer_instance

instance (l : List Nat) (k : Nat) : Decidable (pairGapLe l k) := by
  unfold pairGapLe; infer_instance

instance (S : Sched) (A : Assignment) : Decidable (rule11 S A) := by
  unfold rule11; infer_instance

instance (S : Sched) (A : Assignment) : Decidable (rule12 S A) := by
  unfold rule12; infer_instance

instance (S : Sched) (A : Assignment) : Decidable (rule13 S A) := by
  unfold rule13; infer_instance

instance (S : Sched) (A : Assignment) : Decidable (rule14 S A) := by
  unfold rule14; infer_instance

instance (S : Sched) (A : Assignment) : Decidable (rule15 S A) := by
  unfold rule15; infer_instance

instance (S : Sched) (A : Assignment) : Decidable (modelHolds S A) := by
  unfold modelHolds; infer_instance

/-!
Solution extraction and automatic diagnostic.
-/

/-- One row of the extracted schedule (`extract_solution`): the date as
an absolute day number, and the names of the role holders (`none` when
no variable of the role is set that day).  The source stores the date
as a string and re-parses it in the diagnostic; that round trip is the
identity. -/
structure Entry where
  date : Nat
  premier : Option String
  rappelable : Option String
  deuxieme : Option String
deriving DecidableEq

/-- Python falsiness of an optional name (`None` or the empty string). -/
def falsy : Option String → Bool
  | none => true
  | some s => s == ""

/-- Python truthiness of an optional name. -/
def truthy (o : Option String) : Bool := !falsy o

/-- Name extraction for one role on one day (`extract_solution`'s inner
loop): scans vet indices in order and keeps the last one whose variable
is set. -/
def extractName (S : Sched) (f : Nat → Bool) : Option String :=
  (List.range (nVets S)).foldl (fun acc v => if f v then some (vetName S v) else acc) none

/-- `extract_solution`: one entry per day of the horizon. -/
def extractSolution (S : Sched) (A : Assignment) : List Entry :=
  (List.range S.nDays).map (fun d =>
    ⟨S.start + d,
     extractName S (fun v => A.premier v d),
     extractName S (fun v => A.rappelable v d),
     extractName S (fun v => A.deuxieme v d)⟩)

/-- The violations `diagnose_schedule` records for one schedule entry,
in source order: missing primary; on a weekend day (weekday at least 5)
a missing secondary or a present backup; on a weekday a missing backup
or a present secondary; the same person as primary and backup; the same
person as primary and secondary. -/
def entryViolations (e : Entry) : List String :=
  (if falsy e.premier then [toString e.date ++ " : aucun premier de garde"] else []) ++
  (if 5 ≤ e.date % 7 then
    (if falsy e.deuxieme then [toString e.date ++ " : aucun deuxieme de garde le week-end"] else []) ++
    (if truthy e.rappelable then [toString e.date ++ " : rappelable present le week-end"] else [])
  else
    (if falsy e.rappelable then [toString e.date ++ " : aucun rappelable en semaine"] else []) ++
    (if truthy e.deuxieme then [toString e.date ++ " : deuxieme de garde en semaine"] else [])) ++
  (if truthy e.premier && truthy e.rappelable && e.premier == e.rappelable then
    [toString e.date ++ " : meme personne en premier et rappelable"] else []) ++
  (if truthy e.premier && truthy e.deuxieme && e.premier == e.deuxieme then
    [toString e.date ++ " : meme personne en premier et deuxieme"] else [])

/-- All violations recorded by `diagnose_schedule` over a schedule (the
per-day loop; the balancing checks only ever append to `warnings`, never
to `violations`, and the statistics do not feed back into either). -/
def diagnoseViolations (sched : List Entry) : List String :=
  (sched.map entryViolations).flatten

/-- The `status` and `violations` fields of `diagnose_schedule`'s
result: status is `success` exactly when no violation was recorded.  An
empty schedule short-circuits to an error with no violations list. -/
def diagnose (sched : List Entry) : String × List String :=
  if sched.isEmpty then ("error", [])
  else
    (if (diagnoseViolations sched).isEmpty then "success" else "error",
     diagnoseViolations sched)

/-!
Horizon validation (`validate_inputs`, date part).  Dates are
year/month/day triples; `toOrdinal` is Python's
`datetime.date.toordinal` (proleptic Gregorian, `0001-01-01` mapping to
1), so differences of ordinals are exactly `(end - start).days`.
-/

/-- A year/month/day date as parsed from an ISO `YYYY-MM-DD` string. -/
structure YMD where
  year : Nat
  month : Nat
  day : Nat
deriving DecidableEq

/-- Gregorian leap year. -/
def isLeap (y : Nat) : Bool := (y % 4 == 0 && !(y % 100 == 0)) || y % 400 == 0

/-- Days in a month of a given year. -/
def monthDays (y m : Nat) : Nat :=
  if m = 2 then (if isLeap y then 29 else 28)
  else if m = 4 ∨ m = 6 ∨ m = 9 ∨ m = 11 then 30
  else 31

/-- Days in the months of year `y` strictly before month `m`. -/
def daysBeforeMonth (y m : Nat) : Nat :=
  ((List.range (m - 1)).map (fun k => monthDays y (k + 1))).foldl (· + ·) 0

/-- Python's `date.toordinal`: `0001-01-01` is day 1. -/
def toOrdinal (x : YMD) : Nat :=
  365 * (x.year - 1) +
    ((x.year - 1) / 4 - (x.year - 1) / 100 + (x.year - 1) / 400) +
    daysBeforeMonth x.year x.month + x.day

/-- The date is one `datetime.strptime` with format `%Y-%m-%d` accepts. -/
def validDate (x : YMD) : Prop :=
  1 ≤ x.year ∧ x.year ≤ 9999 ∧ 1 ≤ x.month ∧ x.month ≤ 12 ∧
  1 ≤ x.day ∧ x.day ≤ monthDays x.year x.month

instance : DecidablePred validDate := fun x => by unfold validDate; infer_instance

/-- The horizon checks of `validate_inputs` once both dates parsed:
error when the start is after the end, error when `(end - start).days`
exceeds 365, otherwise accepted. -/
def validateHorizon (s e : YMD) : Option String :=
  if toOrdinal e < toOrdinal s then
    some "la date de debut doit etre avant la date de fin"
  else if 365 < toOrdinal e - toOrdinal s then
    some "la periode ne peut pas depasser 1 an"
  else none

/-!
Concrete scheduler instances used to witness the theorems and to refute
the claims that fail on the code.  Day number `0` is a Monday, `5` a
Saturday (see the epoch convention above).
-/

/-- A Monday-to-Friday one-week horizon with three interchangeable vets
(none carrying a special name), rest day Sunday so no weekday is ever
blocked, default configuration values, empty history. -/
def S1c : Sched :=
  ⟨0, 5,
   [⟨"Dr. P", [6], []⟩, ⟨"Dr. Q", [6], []⟩, ⟨"Dr. R", [6], []⟩],
   [], [], 1, 2, 2, 2, fun _ => 0, fun _ => 0, fun _ => 0⟩

/-- An assignment over `S1c` with correct daily coverage but the same
vet as primary on Monday and Wednesday of the same work-week. -/
def A1c : Assignment :=
  ⟨fun v d => (v == 0 && (d == 0 || d == 2)) || (v == 1 && (d == 1 || d == 3)) ||
      (v == 2 && d == 4),
   fun v d => (v == 1 && (d == 0 || d == 2)) || (v == 2 && (d == 1 || d == 3)) ||
      (v == 0 && d == 4),
   fun _ _ => false⟩

/-- A one-day horizon consisting of a lone Saturday (a partial
weekend), with three interchangeable vets. -/
def S2c : Sched :=
  ⟨5, 1,
   [⟨"Dr. P", [6], []⟩, ⟨"Dr. Q", [6], []⟩, ⟨"Dr. R", [6], []⟩],
   [], [], 1, 2, 2, 2, fun _ => 0, fun _ => 0, fun _ => 0⟩

/-- The empty assignment: no role held by anyone on any day. -/
def A2c : Assignment := ⟨fun _ _ => false, fun _ _ => false, fun _ _ => false⟩

/-- An assignment giving vet 0 the primary role on the lone Saturday of
`S2c` and nothing else. -/
def A3c : Assignment := ⟨fun v d => v == 0 && d == 0, fun _ _ => false, fun _ _ => false⟩

/-- A Monday-Tuesday horizon with six vets.  Dr. Julien is on vacation
on the Tuesday, Dr. C has Tuesday as rest weekday, the others rest on
Sunday; Dr. Isaure is hard-blocked on the Monday by name. -/
def S7 : Sched :=
  ⟨0, 2,
   [⟨"Dr. Julien", [6], [1]⟩, ⟨"Dr. A", [6], []⟩, ⟨"Dr. B", [6], []⟩,
    ⟨"Dr. C", [1], []⟩, ⟨"Dr. D", [6], []⟩, ⟨"Dr. Isaure", [6], []⟩],
   [], [], 1, 2, 2, 2, fun _ => 0, fun _ => 0, fun _ => 0⟩

/-- An assignment over `S7` in which Dr. Julien is the weekday backup on
Monday, the eve of his vacation. -/
def A7 : Assignment :=
  ⟨fun v d => (v == 1 && d == 0) || (v == 2 && d == 1),
   fun v d => (v == 0 && d == 0) || (v == 4 && d == 1),
   fun _ _ => false⟩

/-- A Saturday-Sunday-Monday horizon with five vets.  Dr. Laura (index
0) has Monday as rest weekday and the Monday of the horizon as a
vacation date. -/
def SL : Sched :=
  ⟨5, 3,
   [⟨"Dr. Laura", [0], [7]⟩, ⟨"Dr. E", [6], []⟩, ⟨"Dr. F", [6], []⟩,
    ⟨"Dr. G", [6], []⟩, ⟨"Dr. H", [6], []⟩],
   [], [], 1, 2, 2, 2, fun _ => 0, fun _ => 0, fun _ => 0⟩

/-- An assignment over `SL`: Dr. E primary and Dr. F secondary on the
weekend pair, Dr. G primary and Dr. H backup on the Monday. -/
def AL : Assignment :=
  ⟨fun v d => (v == 1 && (d == 0 || d == 1)) || (v == 3 && d == 2),
   fun v d => v == 4 && d == 2,
   fun v d => v == 2 && (d == 0 || d == 1)⟩

/-- A one-week Monday-to-Friday horizon containing Dr. Olivier. -/
def S10 : Sched :=
  ⟨0, 5,
   [⟨"Dr. Olivier", [6], []⟩, ⟨"Dr. E", [6], []⟩, ⟨"Dr. F", [6], []⟩],
   [], [], 1, 2, 2, 2, fun _ => 0, fun _ => 0, fun _ => 0⟩

/-- An assignment giving Dr. Olivier the backup role on three days of
the sole work-week of `S10`, and nothing else. -/
def A10 : Assignment :=
  ⟨fun _ _ => false,
   fun v d => v == 0 && (d == 0 || d == 1 || d == 2),
   fun _ _ => false⟩

/-!
General lemmas: counting, extraction, vet names, and the structure of
the calendar partition.
-/

theorem toNat_add_le_one {a b : Bool} (h : a.toNat + b.toNat ≤ 1) (ha : a = true) :
    b = false := by
  cases a <;> cases b <;> simp_all

/-- A count of exactly one over `range n` pins down a unique witness. -/
theorem countP_range_one {n : Nat} {f : Nat → Bool}
    (h : (List.range n).countP f = 1) :
    ∃ u, u < n ∧ f u = true ∧ ∀ v < n, f v = true → v = u := by
  have hlen : ((List.range n).filter f).length = 1 := by
    simpa [List.countP_eq_length_filter] using h
  obtain ⟨a, ha⟩ := List.length_eq_one.mp hlen
  have hmem : a ∈ (List.range n).filter f := by
    rw [ha]; exact List.mem_singleton_self a
  have h2 := List.mem_filter.mp hmem
  refine ⟨a, List.mem_range.mp h2.1, h2.2, ?_⟩
  intro v hv hfv
  have hv2 : v ∈ (List.range n).filter f :=
    List.mem_filter.mpr ⟨List.mem_range.mpr hv, hfv⟩
  rw [ha] at hv2
  simpa using hv2

theorem extract_fold_const (S : Sched) (f : Nat → Bool) :
    ∀ (m : Nat) (acc : Option String), (∀ v < m, f v = false) →
      (List.range m).foldl (fun acc v => if f v then some (vetName S v) else acc) acc = acc := by
  intro m
  induction m with
  | zero => intro acc _; rfl
  | succ m ih =>
    intro acc h
    rw [List.range_succ, List.foldl_append,
      ih acc (fun v hv => h v (Nat.lt_succ_of_lt hv))]
    simp [h m (Nat.lt_succ_self m)]

/-- If no variable of the role is set, `extract_solution` records no
name for it. -/
theorem extractName_eq_none {S : Sched} {f : Nat → Bool}
    (h : ∀ v < nVets S, f v = false) : extractName S f = none :=
  extract_fold_const S f (nVets S) none h

/-- If exactly one vet's variable is set, `extract_solution` records
exactly that vet's name. -/
theorem extractName_eq_some {S : Sched} {f : Nat → Bool} {u : Nat}
    (hu : u < nVets S) (hfu : f u = true)
    (huniq : ∀ v < nVets S, f v = true → v = u) :
    extractName S f = some (vetName S u) := by
  unfold extractName
  suffices h : ∀ m, u < m → m ≤ nVets S →
      (List.range m).foldl (fun acc v => if f v then some (vetName S v) else acc) none
        = some (vetName S u) from h (nVets S) hu le_rfl
  intro m
  induction m with
  | zero => omega
  | succ m ih =>
    intro hum hmn
    rw [List.range_succ, List.foldl_append]
    by_cases he : u = m
    · subst he
      rw [extract_fold_const S f u none ?side]
      · simp [hfu]
      case side =>
        intro v hv
        cases hfv : f v with
        | false => rfl
        | true => exact absurd (huniq v (by omega) hfv) (by omega)
    · have hum' : u < m := by omega
      rw [ih hum' (by omega)]
      have hfm : f m = false := by
        cases hfm : f m with
        | false => rfl
        | true => exact absurd (huniq m (by omega) hfm) (fun hh => he hh.symm)
      simp [hfm]

theorem vetName_ne_empty {S : Sched} {v : Nat} (hv : v < nVets S)
    (hne : ∀ vt ∈ S.vets, vt.name ≠ "") : vetName S v ≠ "" := by
  unfold nVets at hv
  unfold vetName
  rw [dif_pos hv]
  exact hne _ (S.vets.get_mem _ _)

/-- With pairwise distinct vet names, distinct indices give distinct
names. -/
theorem vetName_inj {S : Sched} (hnd : (S.vets.map Vet.name).Nodup)
    {u w : Nat} (hu : u < nVets S) (hw : w < nVets S) (huw : u ≠ w) :
    vetName S u ≠ vetName S w := by
  unfold nVets at hu hw
  unfold vetName
  rw [dif_pos hu, dif_pos hw]
  intro heq
  apply huw
  have hinj := List.nodup_iff_injective_get.mp hnd
  have hu2 : u < (S.vets.map Vet.name).length := by simpa using hu
  have hw2 : w < (S.vets.map Vet.name).length := by simpa using hw
  have hg : (S.vets.map Vet.name).get ⟨u, hu2⟩ = (S.vets.map Vet.name).get ⟨w, hw2⟩ := by
    simp only [List.get_eq_getElem, List.getElem_map]
    exact heq
  have := hinj hg
  simpa using congrArg Fin.val this

/-- The weekday part of the calendar loop: every weekday-classed index
of the unprocessed range ends up in the weekday list. -/
theorem calGo_mem_weekdays (start n : Nat) :
    ∀ (fuel i : Nat) (cw : List Nat) (d : Nat),
      n ≤ i + fuel → i ≤ d → d < n → wdOf start d < 5 →
      d ∈ (calGo start n fuel i cw).1 := by
  intro fuel
  induction fuel with
  | zero => intro i cw d h1 h2 h3 _; omega
  | succ fuel ih =>
    intro i cw d h1 h2 h3 h4
    have hi : i < n := by omega
    rw [calGo, if_pos hi]
    by_cases h5 : wdOf start i < 5
    · rw [if_pos h5]
      by_cases h6 : wdOf start i = 4 ∨ i = n - 1
      · rw [if_pos h6]
        show d ∈ i :: (calGo start n fuel (i + 1) []).1
        by_cases hd : d = i
        · exact hd ▸ List.mem_cons_self d _
        · exact List.mem_cons_of_mem _ (ih (i + 1) [] d (by omega) (by omega) h3 h4)
      · rw [if_neg h6]
        show d ∈ i :: (calGo start n fuel (i + 1) (cw ++ [i])).1
        by_cases hd : d = i
        · exact hd ▸ List.mem_cons_self d _
        · exact List.mem_cons_of_mem _ (ih (i + 1) (cw ++ [i]) d (by omega) (by omega) h3 h4)
    · rw [if_neg h5]
      have hdi : d ≠ i := fun he => h5 (he ▸ h4)
      by_cases h6 : wdOf start i = 5
      · rw [if_pos h6]
        by_cases h7 : i + 1 < n
        · rw [if_pos h7]
          show d ∈ (calGo start n fuel (i + 2) cw).1
          have h8 : wdOf start (i + 1) = 6 := by
            unfold wdOf at h6 ⊢; omega
          have hdi1 : d ≠ i + 1 := fun he => by
            rw [he] at h4; omega
          exact ih (i + 2) cw d (by omega) (by omega) h3 h4
        · rw [if_neg h7]
          show d ∈ (calGo start n fuel (i + 1) cw).1
          exact ih (i + 1) cw d (by omega) (by omega) h3 h4
      · rw [if_neg h6]
        show d ∈ (calGo start n fuel (i + 1) cw).1
        exact ih (i + 1) cw d (by omega) (by omega) h3 h4

/-- The weekend part of the calendar loop: every weekend-classed index
of the unprocessed range lies in some produced weekend group. -/
theorem calGo_weekend_cover (start n : Nat) :
    ∀ (fuel i : Nat) (cw : List Nat) (d : Nat),
      n ≤ i + fuel → i ≤ d → d < n → 5 ≤ wdOf start d →
      ∃ we ∈ (calGo start n fuel i cw).2.2, d ∈ we := by
  intro fuel
  induction fuel with
  | zero => intro i cw d h1 h2 h3 _; omega
  | succ fuel ih =>
    intro i cw d h1 h2 h3 h4
    have hi : i < n := by omega
    rw [calGo, if_pos hi]
    by_cases h5 : wdOf start i < 5
    · rw [if_pos h5]
      have hdi : d ≠ i := fun he => by rw [he] at h4; omega
      by_cases h6 : wdOf start i = 4 ∨ i = n - 1
      · rw [if_pos h6]
        show ∃ we ∈ (calGo start n fuel (i + 1) []).2.2, d ∈ we
        exact ih (i + 1) [] d (by omega) (by omega) h3 h4
      · rw [if_neg h6]
        show ∃ we ∈ (calGo start n fuel (i + 1) (cw ++ [i])).2.2, d ∈ we
        exact ih (i + 1) (cw ++ [i]) d (by omega) (by omega) h3 h4
    · rw [if_neg h5]
      by_cases h6 : wdOf start i = 5
      · rw [if_pos h6]
        by_cases h7 : i + 1 < n
        · rw [if_pos h7]
          show ∃ we ∈ [i, i + 1] :: (calGo start n fuel (i + 2) cw).2.2, d ∈ we
          by_cases hd : d = i ∨ d = i + 1
          · refine ⟨[i, i + 1], List.mem_cons_self _ _, ?_⟩
            rcases hd with hd | hd <;> simp [hd]
          · push_neg at hd
            obtain ⟨we, hwe, hdwe⟩ :=
              ih (i + 2) cw d (by omega) (by omega) h3 h4
            exact ⟨we, List.mem_cons_of_mem _ hwe, hdwe⟩
        · rw [if_neg h7]
          show ∃ we ∈ [i] :: (calGo start n fuel (i + 1) cw).2.2, d ∈ we
          have hdi : d = i := by omega
          exact ⟨[i], List.mem_cons_self _ _, by simp [hdi]⟩
      · rw [if_neg h6]
        show ∃ we ∈ [i] :: (calGo start n fuel (i + 1) cw).2.2, d ∈ we
        by_cases hd : d = i
        · exact ⟨[i], List.mem_cons_self _ _, by simp [hd]⟩
        · obtain ⟨we, hwe, hdwe⟩ := ih (i + 1) cw d (by omega) (by omega) h3 h4
          exact ⟨we, List.mem_cons_of_mem _ hwe, hdwe⟩

/-- Shape of the produced weekend groups: a full Saturday-Sunday pair
inside the horizon, or a one-day partial weekend. -/
theorem calGo_weekend_shape (start n : Nat) :
    ∀ (fuel i : Nat) (cw : List Nat), ∀ we ∈ (calGo start n fuel i cw).2.2,
      (∃ s, we = [s, s + 1] ∧ wdOf start s = 5 ∧ s + 1 < n) ∨ (∃ s, we = [s]) := by
  intro fuel
  induction fuel with
  | zero => intro i cw we hwe; simp [calGo] at hwe
  | succ fuel ih =>
    intro i cw we hwe
    rw [calGo] at hwe
    by_cases hi : i < n
    · rw [if_pos hi] at hwe
      by_cases h5 : wdOf start i < 5
      · rw [if_pos h5] at hwe
        by_cases h6 : wdOf start i = 4 ∨ i = n - 1
        · rw [if_pos h6] at hwe
          exact ih (i + 1) [] we hwe
        · rw [if_neg h6] at hwe
          exact ih (i + 1) (cw ++ [i]) we hwe
      · rw [if_neg h5] at hwe
        by_cases h6 : wdOf start i = 5
        · rw [if_pos h6] at hwe
          by_cases h7 : i + 1 < n
          · rw [if_pos h7] at hwe
            have hwe' : we = [i, i + 1] ∨ we ∈ (calGo start n fuel (i + 2) cw).2.2 := by
              simpa using hwe
            rcases hwe' with rfl | hwe'
            · exact Or.inl ⟨i, rfl, h6, h7⟩
            · exact ih (i + 2) cw we hwe'
          · rw [if_neg h7] at hwe
            have hwe' : we = [i] ∨ we ∈ (calGo start n fuel (i + 1) cw).2.2 := by
              simpa using hwe
            rcases hwe' with rfl | hwe'
            · exact Or.inr ⟨i, rfl⟩
            · exact ih (i + 1) cw we hwe'
        · rw [if_neg h6] at hwe
          have hwe' : we = [i] ∨ we ∈ (calGo start n fuel (i + 1) cw).2.2 := by
            simpa using hwe
          rcases hwe' with rfl | hwe'
          · exact Or.inr ⟨i, rfl⟩
          · exact ih (i + 1) cw we hwe'
    · rw [if_neg hi] at hwe
      simp at hwe

/-- Every weekday-classed day index of the horizon is in
`self.weekdays`. -/
theorem mem_weekdaysOf {S : Sched} {d : Nat} (hd : d < S.nDays)
    (hw : wdOf S.start d < 5) : d ∈ weekdaysOf S :=
  calGo_mem_weekdays S.start S.nDays S.nDays 0 [] d (by omega) (Nat.zero_le d) hd hw

/-- Every weekend-classed day index of the horizon is in some group of
`self.weekends`. -/
theorem mem_weekendsOf {S : Sched} {d : Nat} (hd : d < S.nDays)
    (hw : 5 ≤ wdOf S.start d) : ∃ we ∈ weekendsOf S, d ∈ we :=
  calGo_weekend_cover S.start S.nDays S.nDays 0 [] d (by omega) (Nat.zero_le d) hd hw

/-- Every group of `self.weekends` is a full in-horizon pair starting
on a Saturday, or a single partial day. -/
theorem weekendsOf_shape {S : Sched} :
    ∀ we ∈ weekendsOf S,
      (∃ s, we = [s, s + 1] ∧ wdOf S.start s = 5 ∧ s + 1 < S.nDays) ∨ (∃ s, we = [s]) :=
  fun we hwe => calGo_weekend_shape S.start S.nDays S.nDays 0 [] we hwe

/-- Central diagnostic lemma: on a horizon whose weekend groups are all
full pairs, and for a roster of pairwise distinct non-empty names, any
assignment satisfying the coverage rules 1 and 2 extracts to a schedule
on which `diagnose_schedule` records no violation at all. -/
theorem diag_no_violation (S : Sched) (A : Assignment)
    (hnd : (S.vets.map Vet.name).Nodup)
    (hne : ∀ vt ∈ S.vets, vt.name ≠ "")
    (hfull : ∀ we ∈ weekendsOf S, we.length = 2)
    (h1 : rule1 S A) (h2 : rule2 S A) :
    diagnoseViolations (extractSolution S A) = [] := by
  unfold diagnoseViolations extractSolution
  rw [List.map_map, List.flatten_eq_nil_iff]
  intro x hx
  rw [List.mem_map] at hx
  obtain ⟨d, hdmem, rfl⟩ := hx
  have hd : d < S.nDays := List.mem_range.mp hdmem
  show entryViolations
    ⟨S.start + d, extractName S (fun v => A.premier v d),
     extractName S (fun v => A.rappelable v d),
     extractName S (fun v => A.deuxieme v d)⟩ = []
  by_cases hw : wdOf S.start d < 5
  · obtain ⟨hpc, hrc, hall⟩ := h1 d (mem_weekdaysOf hd hw)
    obtain ⟨up, hup, hfp, hupu⟩ := countP_range_one hpc
    obtain ⟨ur, hur, hfr, huru⟩ := countP_range_one hrc
    have hep := extractName_eq_some hup hfp hupu
    have her := extractName_eq_some hur hfr huru
    have hed : extractName S (fun v => A.deuxieme v d) = none :=
      extractName_eq_none (fun v hv => (hall v hv).2)
    have hne1 : up ≠ ur := by
      intro he
      have hx := (hall up hup).1
      rw [hfp, he, hfr] at hx
      simp at hx
    have e1 : (vetName S up == "") = false :=
      beq_eq_false_iff_ne.mpr (vetName_ne_empty hup hne)
    have e2 : (vetName S ur == "") = false :=
      beq_eq_false_iff_ne.mpr (vetName_ne_empty hur hne)
    have e3 : ((some (vetName S up) : Option String) == some (vetName S ur)) = false :=
      beq_eq_false_iff_ne.mpr (by simpa using vetName_inj hnd hup hur hne1)
    have hw7 : ¬ 5 ≤ (S.start + d) % 7 := by unfold wdOf at hw; omega
    rw [hep, her, hed]
    simp [entryViolations, falsy, truthy, hw7, e1, e2, e3]
  · have hw5 : 5 ≤ wdOf S.start d := by omega
    obtain ⟨we, hwe, hdwe⟩ := mem_weekendsOf hd hw5
    rcases weekendsOf_shape we hwe with ⟨s, rfl, hs5, hsn⟩ | ⟨s, rfl⟩
    · have h2' := h2 _ hwe (by rfl)
      have hpc : (List.range (nVets S)).countP (fun v => A.premier v s) = 1 := h2'.1
      have hdc : (List.range (nVets S)).countP (fun v => A.deuxieme v s) = 1 := h2'.2.1
      have hall : ∀ v < nVets S,
          A.rappelable v s = false ∧ A.rappelable v (s + 1) = false ∧
          A.premier v s = A.premier v (s + 1) ∧
          A.deuxieme v s = A.deuxieme v (s + 1) ∧
          (A.premier v s).toNat + (A.deuxieme v s).toNat ≤ 1 := h2'.2.2
      obtain ⟨up, hup, hfp, hupu⟩ := countP_range_one hpc
      obtain ⟨ud, hud, hfd, hudu⟩ := countP_range_one hdc
      have hne1 : up ≠ ud := by
        intro he
        have hx := (hall up hup).2.2.2.2
        rw [hfp, he, hfd] at hx
        simp at hx
      have e1 : (vetName S up == "") = false :=
        beq_eq_false_iff_ne.mpr (vetName_ne_empty hup hne)
      have e2 : (vetName S ud == "") = false :=
        beq_eq_false_iff_ne.mpr (vetName_ne_empty hud hne)
      have e3 : ((some (vetName S up) : Option String) == some (vetName S ud)) = false :=
        beq_eq_false_iff_ne.mpr (by simpa using vetName_inj hnd hup hud hne1)
      have hd2 : d = s ∨ d = s + 1 := by simpa using hdwe
      rcases hd2 with rfl | rfl
      · have hep := extractName_eq_some hup hfp hupu
        have hed := extractName_eq_some hud hfd hudu
        have her : extractName S (fun v => A.rappelable v d) = none :=
          extractName_eq_none (fun v hv => (hall v hv).1)
        have hw7 : 5 ≤ (S.start + d) % 7 := hw5
        rw [hep, her, hed]
        simp [entryViolations, falsy, truthy, hw7, e1, e2, e3]
      · have hfp1 : A.premier up (s + 1) = true := by
          rw [← (hall up hup).2.2.1]; exact hfp
        have hupu1 : ∀ v < nVets S, A.premier v (s + 1) = true → v = up := by
          intro v hv hvp
          exact hupu v hv (by rw [(hall v hv).2.2.1]; exact hvp)
        have hfd1 : A.deuxieme ud (s + 1) = true := by
          rw [← (hall ud hud).2.2.2.1]; exact hfd
        have hudu1 : ∀ v < nVets S, A.deuxieme v (s + 1) = true → v = ud := by
          intro v hv hvp
          exact hudu v hv (by rw [(hall v hv).2.2.2.1]; exact hvp)
        have hep := extractName_eq_some hup hfp1 hupu1
        have hed := extractName_eq_some hud hfd1 hudu1
        have her : extractName S (fun v => A.rappelable v (s + 1)) = none :=
          extractName_eq_none (fun v hv => (hall v hv).2.1)
        have hw7 : 5 ≤ (S.start + (s + 1)) % 7 := hw5
        rw [hep, her, hed]
        simp [entryViolations, falsy, truthy, hw7, e1, e2, e3]
    · have := hfull _ hwe
      simp at this

/-- The `status`/`violations` form of `diag_no_violation` for a
non-empty horizon. -/
theorem diagnose_success (S : Sched) (A : Assignment)
    (hnd : (S.vets.map Vet.name).Nodup)
    (hne : ∀ vt ∈ S.vets, vt.name ≠ "")
    (hfull : ∀ we ∈ weekendsOf S, we.length = 2)
    (h1 : rule1 S A) (h2 : rule2 S A) (hN : S.nDays ≠ 0) :
    diagnose (extractSolution S A) = ("success", []) := by
  have h := diag_no_violation S A hnd hne hfull h1 h2
  have hlen : (extractSolution S A).length = S.nDays := by
    simp [extractSolution]
  unfold diagnose
  rw [h]
  have hemp : (extractSolution S A).isEmpty = false := by
    cases he : extractSolution S A with
    | nil => rw [he] at hlen; simp at hlen; exact absurd hlen.symm hN
    | cons a t => rfl
  rw [hemp]
  simp

/-!
Claim theorems.
-/

/-- C1, counterexample: a schedule with correct daily coverage but the
same vet as primary twice in one work-week (breaching rule 3) is
diagnosed with an empty violations list and status `success`, contrary
to the claim that any breach of E.3 yields a non-empty violations list
and status `error`. -/
theorem C1_counterexample :
    rule1 S1c A1c ∧ rule2 S1c A1c ∧ ¬ rule3 S1c A1c ∧
    diagnose (extractSolution S1c A1c) = ("success", []) := by decide

/-- C1, amended: `diagnose_schedule` checks only per-day coverage and
same-vet duplication, so a schedule satisfying the coverage rules 1 and
2 is reported clean (`success`, no violations) even when rule 3 (one
primary per work-week) is breached. -/
theorem C1_diagnostic_blind_to_rule3 (S : Sched) (A : Assignment)
    (hnd : (S.vets.map Vet.name).Nodup)
    (hne : ∀ vt ∈ S.vets, vt.name ≠ "")
    (hfull : ∀ we ∈ weekendsOf S, we.length = 2)
    (h1 : rule1 S A) (h2 : rule2 S A) (h3 : ¬ rule3 S A) (hN : S.nDays ≠ 0) :
    diagnose (extractSolution S A) = ("success", []) :=
  diagnose_success S A hnd hne hfull h1 h2 hN

/-- C1, witness for the amended theorem at the concrete rule-3-breaching
schedule. -/
theorem C1_witness : diagnose (extractSolution S1c A1c) = ("success", []) :=
  C1_diagnostic_blind_to_rule3 S1c A1c (by decide) (by decide) (by decide)
    (by decide) (by decide) (by decide) (by decide)

/-- C2, counterexample: on a horizon whose only weekend is a partial
(lone Saturday), the empty assignment satisfies every constraint of the
emitted model, yet its extracted schedule is diagnosed with status
`error` and a non-empty violations list. -/
theorem C2_counterexample :
    modelHolds S2c A2c ∧ (diagnose (extractSolution S2c A2c)).1 = "error" ∧
    (diagnose (extractSolution S2c A2c)).2 ≠ [] := by decide

/-- C2, amended: when every weekend group of the horizon is a full
pair (no partial weekend) and the roster names are distinct and
non-empty, any assignment satisfying the emitted model extracts to a
schedule diagnosed `success` with zero violations. -/
theorem C2_roundtrip_success (S : Sched) (A : Assignment)
    (hnd : (S.vets.map Vet.name).Nodup)
    (hne : ∀ vt ∈ S.vets, vt.name ≠ "")
    (hfull : ∀ we ∈ weekendsOf S, we.length = 2)
    (h : modelHolds S A) (hN : S.nDays ≠ 0) :
    diagnose (extractSolution S A) = ("success", []) :=
  diagnose_success S A hnd hne hfull h.1 h.2.1 hN

/-- C2, witness for the amended theorem on a Saturday-to-Monday horizon
with a full weekend pair. -/
theorem C2_witness : diagnose (extractSolution SL AL) = ("success", []) :=
  C2_roundtrip_success SL AL (by decide) (by decide) (by decide) (by decide)
    (by decide)

/-- C3, counterexample: on the lone-Saturday horizon the model does not
entail zero weekend assignments on the partial weekend day: an
assignment with a primary on that day satisfies every emitted
constraint. -/
theorem C3_counterexample :
    modelHolds S2c A3c ∧ weekendsOf S2c = [[0]] ∧ A3c.premier 0 0 = true := by decide

/-- C3, amended: rule 2 constrains only days belonging to full
(two-day) weekend groups; two assignments agreeing on those days are
indistinguishable to it, so partial weekend days are left completely
unconstrained by the weekend coverage rule and zero weekend assignments
there are not entailed. -/
theorem C3_rule2_ignores_partial_weekends (S : Sched) (A B : Assignment)
    (hagree : ∀ v d, (∃ we ∈ weekendsOf S, we.length = 2 ∧ d ∈ we) →
      A.premier v d = B.premier v d ∧ A.rappelable v d = B.rappelable v d ∧
      A.deuxieme v d = B.deuxieme v d)
    (h2 : rule2 S A) : rule2 S B := by
  intro we hwe hlen
  obtain ⟨a, b, rfl⟩ := List.length_eq_two.mp hlen
  have hmem : ∀ d ∈ [a, b], ∃ we ∈ weekendsOf S, we.length = 2 ∧ d ∈ we :=
    fun d hd => ⟨[a, b], hwe, rfl, hd⟩
  have ha := fun v => hagree v a (hmem a (by simp))
  have hb := fun v => hagree v b (hmem b (by simp))
  have h2' := h2 [a, b] hwe hlen
  have hpc : (List.range (nVets S)).countP (fun v => A.premier v a) = 1 := h2'.1
  have hdc : (List.range (nVets S)).countP (fun v => A.deuxieme v a) = 1 := h2'.2.1
  have hall : ∀ v < nVets S,
      A.rappelable v a = false ∧ A.rappelable v b = false ∧
      A.premier v a = A.premier v b ∧ A.deuxieme v a = A.deuxieme v b ∧
      (A.premier v a).toNat + (A.deuxieme v a).toNat ≤ 1 := h2'.2.2
  show (List.range (nVets S)).countP (fun v => B.premier v a) = 1 ∧
    (List.range (nVets S)).countP (fun v => B.deuxieme v a) = 1 ∧
    ∀ v < nVets S,
      B.rappelable v a = false ∧ B.rappelable v b = false ∧
      B.premier v a = B.premier v b ∧ B.deuxieme v a = B.deuxieme v b ∧
      (B.premier v a).toNat + (B.deuxieme v a).toNat ≤ 1
  refine ⟨?_, ?_, ?_⟩
  · rw [List.countP_congr (fun v _ => ?_), hpc]
    rw [(ha v).1]
  · rw [List.countP_congr (fun v _ => ?_), hdc]
    rw [(ha v).2.2]
  · intro v hv
    obtain ⟨k1, k2, k3, k4, k5⟩ := hall v hv
    refine ⟨?_, ?_, ?_, ?_, ?_⟩
    · rw [← (ha v).2.1]; exact k1
    · rw [← (hb v).2.1]; exact k2
    · rw [← (ha v).1, ← (hb v).1]; exact k3
    · rw [← (ha v).2.2, ← (hb v).2.2]; exact k4
    · rw [← (ha v).1, ← (ha v).2.2]; exact k5

/-- C3, witness: rule 2 transfers from the empty assignment to the one
with a primary on the lone Saturday, since that horizon has no full
weekend group. -/
theorem C3_witness : rule2 S2c A3c :=
  C3_rule2_ignores_partial_weekends S2c A2c A3c
    (by
      intro v d hex
      obtain ⟨we, hwe, h2len, -⟩ := hex
      have hW : weekendsOf S2c = [[0]] := by decide
      rw [hW] at hwe
      simp at hwe
      subst hwe
      simp at h2len)
    (by decide)

/-- C4, counterexample: the horizon 2026-01-01 to 2027-01-01 spans
N = 366 days counted inclusively, yet `validate_inputs` accepts it,
contrary to the claim that N > 365 is rejected (the code compares
`(end - start).days`, i.e. N - 1, against 365). -/
theorem C4_counterexample :
    validDate ⟨2026, 1, 1⟩ ∧ validDate ⟨2027, 1, 1⟩ ∧
    toOrdinal ⟨2026, 1, 1⟩ ≤ toOrdinal ⟨2027, 1, 1⟩ ∧
    toOrdinal ⟨2027, 1, 1⟩ - toOrdinal ⟨2026, 1, 1⟩ + 1 = 366 ∧
    validateHorizon ⟨2026, 1, 1⟩ ⟨2027, 1, 1⟩ = none := by decide

/-- C4, amended: for well-formed dates with start not after end, the
horizon is rejected exactly when `end - start` exceeds 365 days, that
is when the inclusive day count N = end - start + 1 exceeds 366. -/
theorem C4_horizon_rejection_bound (s e : YMD)
    (hs : validDate s) (he : validDate e) (hle : toOrdinal s ≤ toOrdinal e) :
    validateHorizon s e ≠ none ↔ 366 < toOrdinal e - toOrdinal s + 1 := by
  unfold validateHorizon
  rw [if_neg (by omega)]
  by_cases h : 365 < toOrdinal e - toOrdinal s
  · rw [if_pos h]
    exact ⟨fun _ => by omega, fun _ => by simp⟩
  · rw [if_neg h]
    exact ⟨fun hc => absurd rfl hc, fun hc => absurd hc (by omega)⟩

/-- C4, witness for the amended theorem: a 367-day horizon
(2026-01-01 to 2027-01-02) is rejected. -/
theorem C4_witness : validateHorizon ⟨2026, 1, 1⟩ ⟨2027, 1, 2⟩ ≠ none :=
  (C4_horizon_rejection_bound ⟨2026, 1, 1⟩ ⟨2027, 1, 2⟩ (by decide) (by decide)
    (by decide)).mpr (by decide)

/-- C5: the backup caps of rule 4 as emitted: vets without a special
name get at most 2 backups per work-week, Dr. Olivier at most 1 over
every two consecutive work-weeks, Dr. Dorra at most 1 per work-week. -/
theorem C5_backup_caps (S : Sched) (A : Assignment) (h : modelHolds S A)
    (v : Nat) (hv : v < nVets S) :
    (vetName S v ≠ "Dr. Olivier" → vetName S v ≠ "Dr. Dorra" →
      ∀ w ∈ weeksOf S, w.countP (fun d => A.rappelable v d) ≤ 2) ∧
    (vetName S v = "Dr. Olivier" →
      ∀ i < (weeksOf S).length, i + 1 < (weeksOf S).length →
        ((weeksOf S).getD i [] ++ (weeksOf S).getD (i + 1) []).countP
          (fun d => A.rappelable v d) ≤ 1) ∧
    (vetName S v = "Dr. Dorra" →
      ∀ w ∈ weeksOf S, w.countP (fun d => A.rappelable v d) ≤ 1) := by
  obtain ⟨-, -, -, h4, -, -, -, -, -, -, -, -, -, -, -⟩ := h
  have h4v := h4 v hv
  refine ⟨fun hn1 hn2 => h4v.2.2 hn1 hn2, fun hO => h4v.1 hO, fun hD => ?_⟩
  exact h4v.2.1 (by rw [hD]; decide) hD

/-- C5, witness at a vet with no special name. -/
theorem C5_witness :
    (vetName S7 1 ≠ "Dr. Olivier" → vetName S7 1 ≠ "Dr. Dorra" →
      ∀ w ∈ weeksOf S7, w.countP (fun d => A7.rappelable 1 d) ≤ 2) ∧
    (vetName S7 1 = "Dr. Olivier" →
      ∀ i < (weeksOf S7).length, i + 1 < (weeksOf S7).length →
        ((weeksOf S7).getD i [] ++ (weeksOf S7).getD (i + 1) []).countP
          (fun d => A7.rappelable 1 d) ≤ 1) ∧
    (vetName S7 1 = "Dr. Dorra" →
      ∀ w ∈ weeksOf S7, w.countP (fun d => A7.rappelable 1 d) ≤ 1) :=
  C5_backup_caps S7 A7 (by decide) 1 (by decide)

/-- C6: for Dr. Laura, the Monday-rest implications of rules 5bis and
15 are skipped exactly when the Monday is one of her rest weekdays and
not one of her vacation dates; and when that Monday is a vacation date,
any assignment satisfying the model gives her no weekend primary on the
preceding full weekend (rule 7's eve-of-vacation block on the Sunday
propagates to the Saturday through rule 2's weekend equality). -/
theorem C6_laura_monday_exception (S : Sched) (A : Assignment)
    (v sam dim : Nat) (hv : v < nVets S)
    (hname : vetName S v = "Dr. Laura") (hwe : [sam, dim] ∈ weekendsOf S)
    (hdim : dim + 1 < S.nDays) (hmon : wdOf S.start (dim + 1) = 0)
    (h : modelHolds S A) :
    (lauraException S v (dim + 1) = true ↔
      0 ∈ vetRepos S v ∧ (S.start + (dim + 1)) ∉ vetConges S v) ∧
    ((S.start + (dim + 1)) ∈ vetConges S v → A.premier v sam = false) := by
  obtain ⟨-, h2, -, -, -, -, -, h7, -, -, -, -, -, -, -⟩ := h
  constructor
  · unfold lauraException
    rw [hname]
    simp [List.contains_eq_any_beq, List.any_eq_true]
  · intro hcg
    have h2' := h2 _ hwe (by rfl)
    have heq : A.premier v sam = A.premier v dim := (h2'.2.2 v hv).2.2.1
    have h7d := (h7 v hv).2.2.2 dim (by omega)
    have heve := h7d.2.2 hdim
    have hjne : vetName S v ≠ "Dr. Julien" := by rw [hname]; decide
    have hone : vetName S v ≠ "Dr. Olivier" := by rw [hname]; decide
    have hres := heve.2 ⟨hjne, hone, Or.inr hcg⟩
    rw [heq]
    exact hres.1

/-- C6, witness: Dr. Laura on the `SL` horizon, where the Monday after
the weekend is her vacation date. -/
theorem C6_witness :
    (lauraException SL 0 2 = true ↔
      0 ∈ vetRepos SL 0 ∧ (SL.start + 2) ∉ vetConges SL 0) ∧
    ((SL.start + 2) ∈ vetConges SL 0 → AL.premier 0 0 = false) :=
  C6_laura_monday_exception SL AL 0 0 1 (by decide) (by decide) (by decide)
    (by decide) (by decide) (by decide)

/-- C7, counterexample: an assignment in which Dr. Julien holds the
backup role on the eve of his vacation satisfies the whole model, so
the claim that both primary and backup are forced to zero for him on
such a day is false (only primary is blocked). -/
theorem C7_counterexample :
    modelHolds S7 A7 ∧ vetName S7 0 = "Dr. Julien" ∧
    (S7.start + 1) ∈ vetConges S7 0 ∧ A7.rappelable 0 0 = true := by decide

/-- C7, amended: vets other than Dr. Julien and Dr. Olivier are blocked
from both primary and backup on the eve of a rest weekday or vacation;
Dr. Julien is blocked only from primary, and only on the eve of a
vacation. -/
theorem C7_eve_of_off_blocking (S : Sched) (A : Assignment) (h : modelHolds S A)
    (v : Nat) (hv : v < nVets S) (d : Nat) (hd1 : d + 1 < S.nDays) :
    (vetName S v ≠ "Dr. Julien" ∧ vetName S v ≠ "Dr. Olivier" →
      (wdOf S.start (d + 1) ∈ vetRepos S v ∧ wdOf S.start (d + 1) < 5) ∨
        (S.start + (d + 1)) ∈ vetConges S v →
      A.premier v d = false ∧ A.rappelable v d = false) ∧
    (vetName S v = "Dr. Julien" → (S.start + (d + 1)) ∈ vetConges S v →
      A.premier v d = false) := by
  obtain ⟨-, -, -, -, -, -, -, h7, -, -, -, -, -, -, -⟩ := h
  have h7d := ((h7 v hv).2.2.2 d (by omega)).2.2 hd1
  exact ⟨fun hn hc => h7d.2 ⟨hn.1, hn.2, hc⟩, fun hj hc => h7d.1 ⟨hj, hc⟩⟩

/-- C7, witness at the vet whose rest weekday is the next day. -/
theorem C7_witness :
    (vetName S7 3 ≠ "Dr. Julien" ∧ vetName S7 3 ≠ "Dr. Olivier" →
      (wdOf S7.start 1 ∈ vetRepos S7 3 ∧ wdOf S7.start 1 < 5) ∨
        (S7.start + 1) ∈ vetConges S7 3 →
      A7.premier 3 0 = false ∧ A7.rappelable 3 0 = false) ∧
    (vetName S7 3 = "Dr. Julien" → (S7.start + 1) ∈ vetConges S7 3 →
      A7.premier 3 0 = false) :=
  C7_eve_of_off_blocking S7 A7 (by decide) 3 (by decide) 0 (by decide)

/-- C8: in any assignment satisfying the model, a vet holds no role at
all on a rest weekday or vacation date; the secondary role on a rest
weekday is zeroed by the weekday coverage rule 1 rather than by the
shutdown rule 7. -/
theorem C8_rest_vacation_shutdown (S : Sched) (A : Assignment)
    (h : modelHolds S A) (v : Nat) (hv : v < nVets S) (d : Nat) (hd : d < S.nDays)
    (hoff : (wdOf S.start d ∈ vetRepos S v ∧ wdOf S.start d < 5) ∨
      (S.start + d) ∈ vetConges S v) :
    A.premier v d = false ∧ A.rappelable v d = false ∧ A.deuxieme v d = false := by
  obtain ⟨h1, -, -, -, -, -, -, h7, -, -, -, -, -, -, -⟩ := h
  have h7d := (h7 v hv).2.2.2 d hd
  rcases hoff with ⟨hr, hw⟩ | hcg
  · have hpr := h7d.1 ⟨hr, hw⟩
    have hdx := ((h1 d (mem_weekdaysOf hd hw)).2.2 v hv).2
    exact ⟨hpr.1, hpr.2, hdx⟩
  · exact h7d.2.1 hcg

/-- C8, witness at a rest weekday. -/
theorem C8_witness :
    A7.premier 3 1 = false ∧ A7.rappelable 3 1 = false ∧ A7.deuxieme 3 1 = false :=
  C8_rest_vacation_shutdown S7 A7 (by decide) 3 (by decide) 1 (by decide) (by decide)

/-- C9: the vet named exactly Dr. Isaure is forced out of all three
roles on every Monday, regardless of the configuration (the embedded
model carries no `vets_speciaux` data at all, since `add_constraints`
never reads it) and independently of her declared rest days. -/
theorem C9_isaure_never_on_monday (S : Sched) (A : Assignment)
    (h : modelHolds S A) (v : Nat) (hv : v < nVets S)
    (hname : vetName S v = "Dr. Isaure") (d : Nat) (hd : d < S.nDays)
    (hmon : wdOf S.start d = 0) :
    A.premier v d = false ∧ A.rappelable v d = false ∧ A.deuxieme v d = false := by
  obtain ⟨-, -, -, -, -, -, -, h7, -, -, -, -, -, -, -⟩ := h
  exact (h7 v hv).2.2.1 hname d hd hmon

/-- C9, witness: Dr. Isaure on the Monday of `S7`. -/
theorem C9_witness :
    A7.premier 5 0 = false ∧ A7.rappelable 5 0 = false ∧ A7.deuxieme 5 0 = false :=
  C9_isaure_never_on_monday S7 A7 (by decide) 5 (by decide) (by decide) 0
    (by decide) (by decide)

/-- C10: with fewer than two work-weeks, rule 4 emits no backup cap for
Dr. Olivier at all, so an assignment giving him backup on more than two
days of the sole work-week still satisfies every rule-4 constraint,
provided the other vets respect their own caps. -/
theorem C10_no_fallback_cap_for_olivier (S : Sched) (A : Assignment)
    (hweeks : (weeksOf S).length < 2)
    (holiv : ∀ vO < nVets S, vetName S vO = "Dr. Olivier" →
      2 < ((weeksOf S).getD 0 []).countP (fun d => A.rappelable vO d))
    (hothers : ∀ v < nVets S, vetName S v ≠ "Dr. Olivier" →
      ∀ w ∈ weeksOf S, w.countP (fun d => A.rappelable v d) ≤
        (if vetName S v = "Dr. Dorra" then 1 else 2)) :
    rule4 S A := by
  intro v hv
  refine ⟨fun _ i hi hi1 => by omega, fun hnO hD w hw => ?_, fun hnO hnD w hw => ?_⟩
  · have hx := hothers v hv hnO w hw
    rw [if_pos hD] at hx
    exact hx
  · have hx := hothers v hv hnO w hw
    rw [if_neg hnD] at hx
    exact hx

/-- C10, witness: Dr. Olivier with three backups in the sole work-week
of `S10`. -/
theorem C10_witness :
    (weeksOf S10).length < 2 ∧
    2 < ((weeksOf S10).getD 0 []).countP (fun d => A10.rappelable 0 d) ∧
    rule4 S10 A10 :=
  ⟨by decide, by decide,
   C10_no_fallback_cap_for_olivier S10 A10 (by decide) (by decide) (by decide)⟩
